import Mathlib

set_option maxHeartbeats 1000000

namespace Finder

/-!
A shallow embedding of `src/main.rs` of the `finder` repository.

The program (function `main`) performs, in source order:
  1. check that the file-list path exists (else print error and return),
  2. open and read the file list line by line into a `Vec<String>`
     (`.expect` panic on open/read failure),
  3. resolve the source directory to an absolute path (panic on failure),
  4. check that the (resolved) source directory exists (else print and return),
  5. walk the source tree (`WalkDir`), dropping unreadable entries via
     `filter_map(Result::ok)` and skipping directories, inserting
     (base name -> full path) into a `HashMap` (later inserts overwrite),
  6. resolve the target directory to an absolute path (panic on failure),
  7. check that the (resolved) target directory exists (else print and return),
  8. check that the target directory is empty (else print and return);
     `read_dir().unwrap()` panics if the directory cannot be listed,
  9. iterate the `HashMap`; for each entry whose base name occurs in the
     file-name list, either print a dry-run notice (default) or copy the
     file to `<target>/<base name>` (`.expect` panic on copy failure).

The embedding models the environment (which paths exist, the walk result,
the bytes of regular files) as an explicit `Env`, and the run's observable
behaviour (outcome, log lines, final file contents) as a `RunOut`.
`HashMap` iteration order is unspecified in Rust; the model fixes the
deterministic insertion order of an association list with in-place
overwrite, which realises one admissible order.
-/

/-- Strip a single trailing carriage return, as `BufRead::lines` does after
removing the `\n` terminator of a line. -/
def dropCR (l : List Char) : List Char :=
  if l.getLast? = some '\r' then l.dropLast else l

/-- Model of the `reader.lines()` iteration in `main` (lines 66-73 of
`main.rs`): each `\n`-terminated line is yielded with the `\n` (and a
preceding `\r`) stripped; text after the last `\n` is yielded as a final
line when non-empty.  The accumulator holds the current line reversed. -/
def rustLinesAux : List Char → List Char → List String
  | cur, [] => if cur.isEmpty then [] else [String.mk cur.reverse]
  | cur, c :: rest =>
    if c = '\n' then String.mk (dropCR cur.reverse) :: rustLinesAux [] rest
    else rustLinesAux (c :: cur) rest

/-- The list `file_names` built by `main`: one pushed entry per line
yielded by `reader.lines()`. -/
def rustLines (content : List Char) : List String :=
  rustLinesAux [] content

/-- Split a character list at every newline, keeping empty segments; a
list with `n` newlines yields `n+1` segments. -/
def splitNL : List Char → List (List Char)
  | [] => [[]]
  | c :: rest =>
    if c = '\n' then [] :: splitNL rest
    else
      match splitNL rest with
      | [] => [[c]]
      | s :: ss => (c :: s) :: ss

/-- Written from the spec's words, independently of `rustLinesAux`: the
list file contributes one entry per line, with the trailing line
terminator (`\n` or `\r\n`) stripped; the text after the final newline is
a line only when non-empty; blank lines are kept as empty entries. -/
def specLines (content : List Char) : List String :=
  let segs := splitNL content
  let body := segs.dropLast.map (fun s => String.mk (dropCR s))
  match segs.getLast? with
  | none => []
  | some [] => body
  | some l => body ++ [String.mk l]

/-- One item yielded by the `WalkDir` iterator: a readable entry with its
directory flag, base name (`entry.file_name()`) and full path
(`entry.path()`), or an unreadable entry (`Err`). -/
inductive WalkItem
  | ok (isDir : Bool) (fileName : String) (path : String)
  | err
deriving DecidableEq, Repr

/-- Whether a walk item is an unreadable (`Err`) entry. -/
def WalkItem.isErr : WalkItem → Bool
  | .err => true
  | _ => false

/-- The `(file_name, full_path)` pairs surviving
`.filter_map(Result::ok).filter(|e| !e.file_type().is_dir())`
(lines 96-106 of `main.rs`): errors are dropped, directories skipped. -/
def walkFiles (items : List WalkItem) : List (String × String) :=
  items.filterMap fun it =>
    match it with
    | .ok false n p => some (n, p)
    | _ => none

/-- Association-list lookup keyed by string (first match). -/
def lookupL {β : Type} (k : String) : List (String × β) → Option β
  | [] => none
  | (k', v) :: rest => if k' = k then some v else lookupL k rest

/-- Association-list insert with overwrite, modelling `HashMap::insert`:
an existing binding for the key is replaced, otherwise the binding is
appended. -/
def insertL {β : Type} (k : String) (v : β) : List (String × β) → List (String × β)
  | [] => [(k, v)]
  | (k', v') :: rest =>
    if k' = k then (k, v) :: rest else (k', v') :: insertL k v rest

/-- The `source_files` map of `main`: every walked file inserted in
traversal order, later files overwriting earlier ones with the same base
name. -/
def buildIndex (files : List (String × String)) : List (String × String) :=
  files.foldl (fun m e => insertL e.1 e.2 m) []

/-- The pairs the copy loop acts on: entries of the source index whose
base name occurs in the file-name list (the `file_names.contains` filter
at line 137 of `main.rs`). -/
def reconciled (fileNames : List String) (index : List (String × String)) :
    List (String × String) :=
  index.filter fun e => fileNames.contains e.1

/-- One console line of the run, structured: the `Reading files from`
banner, one `Inserting` line per walked file, and one `Copying` or
`DRY RUN` line per acted-on pair (carrying base name, source full path
and target path). -/
inductive LogEvent
  | readingFrom (dir : String)
  | inserting (fileName : String)
  | copying (fileName fullPath targetPath : String)
  | dryRun (fileName fullPath targetPath : String)
deriving DecidableEq, Repr

/-- A precondition-failure message printed by `main` before `return`;
each constructor carries the offending path exactly as the corresponding
`println!` interpolates it. -/
inductive ErrMsg
  | fileListMissing (path : String)
  | sourceMissing (path : String)
  | targetMissing (path : String)
  | targetNotEmpty (path : String)
deriving DecidableEq, Repr

/-- How the process ends: normal completion, a clean early `return` after
printing a precondition message, or a `panic!`/`.expect`/`.unwrap` abort. -/
inductive Outcome
  | completed
  | earlyExit (err : ErrMsg)
  | panicked (msg : String)
deriving DecidableEq, Repr

/-- The observable result of a run: the outcome, the structured log, and
the final contents of regular files (path to bytes). -/
structure RunOut where
  outcome : Outcome
  log : List LogEvent
  fs : List (String × List Nat)
deriving DecidableEq, Repr

/-- The environment a run executes in: the command-line arguments'
relevant state, the filesystem facts each step of `main` consults, and
the byte contents of regular files.  `sourceAbs`/`targetAbs` are the
results of `path::absolute` (`none` = resolution error, which `main`
turns into a panic); `targetReadDir` is the number of entries
`read_dir()` yields (`none` = `read_dir` error, an `.unwrap` panic). -/
structure Env where
  fileListPath : String
  fileListExists : Bool
  fileListReadable : Bool
  fileListContent : List Char
  sourceAbs : Option String
  sourceExists : Bool
  walkItems : List WalkItem
  targetAbs : Option String
  targetExists : Bool
  targetReadDir : Option Nat
  disableDryRun : Bool
  fs : List (String × List Nat)

/-- The `format!("{}/{}", absolute_target_string, file_name)` target path. -/
def targetPathOf (absTarget fileName : String) : String :=
  absTarget ++ "/" ++ fileName

/-- The copy loop of `main` (lines 136-146): iterate the source index;
for each entry whose base name is in `file_names`, either log a dry-run
notice, or copy (read the source bytes, write them at the target path),
panicking on the first failed copy.  `fs::copy` is modelled as: look up
the source path's bytes in the current file contents (`none` = I/O
failure) and bind them at the target path. -/
def copyLoop (disableDryRun : Bool) (fileNames : List String) (absTarget : String) :
    List (String × String) → List LogEvent → List (String × List Nat) → RunOut
  | [], log, fs => ⟨.completed, log, fs⟩
  | (n, p) :: rest, log, fs =>
    if fileNames.contains n then
      if disableDryRun then
        match lookupL p fs with
        | some bytes =>
          copyLoop disableDryRun fileNames absTarget rest
            (log ++ [.copying n p (targetPathOf absTarget n)])
            (insertL (targetPathOf absTarget n) bytes fs)
        | none =>
          ⟨.panicked "Cannot copy file.",
            log ++ [.copying n p (targetPathOf absTarget n)], fs⟩
      else
        copyLoop disableDryRun fileNames absTarget rest
          (log ++ [.dryRun n p (targetPathOf absTarget n)]) fs
    else copyLoop disableDryRun fileNames absTarget rest log fs

/-- The whole of `main` (lines 49-147 of `main.rs`), in source order:
file-list existence check, file-list read, source resolution, source
existence check, source-tree walk and indexing, target resolution, target
existence check, target emptiness check, copy loop. -/
def runMain (env : Env) : RunOut :=
  if !env.fileListExists then
    ⟨.earlyExit (.fileListMissing env.fileListPath), [], env.fs⟩
  else if !env.fileListReadable then
    ⟨.panicked "ERROR: Cannot open file.", [], env.fs⟩
  else
    let fileNames := rustLines env.fileListContent
    match env.sourceAbs with
    | none => ⟨.panicked "ERROR: Problem with file (source resolution)", [], env.fs⟩
    | some absSource =>
      if !env.sourceExists then
        ⟨.earlyExit (.sourceMissing absSource), [], env.fs⟩
      else
        let files := walkFiles env.walkItems
        let log := LogEvent.readingFrom absSource :: files.map (fun e => .inserting e.1)
        let sourceFiles := buildIndex files
        match env.targetAbs with
        | none => ⟨.panicked "ERROR: Problem with file (target resolution)", log, env.fs⟩
        | some absTarget =>
          if !env.targetExists then
            ⟨.earlyExit (.targetMissing absTarget), log, env.fs⟩
          else
            match env.targetReadDir with
            | none => ⟨.panicked "read_dir failed", log, env.fs⟩
            | some entryCount =>
              if entryCount ≠ 0 then
                ⟨.earlyExit (.targetNotEmpty absTarget), log, env.fs⟩
              else
                copyLoop env.disableDryRun fileNames absTarget sourceFiles log env.fs

/-- The base names of the copy decisions recorded in a log, in order: one
per `Copying` or `DRY RUN` line. -/
def actedNames (log : List LogEvent) : List String :=
  log.filterMap fun ev =>
    match ev with
    | .copying n _ _ => some n
    | .dryRun n _ _ => some n
    | _ => none

/-- All four preflight facts `main` tests on its way to the copy loop:
file list exists and is readable, source resolves and exists, target
resolves and exists, target directory empty. -/
def preflightPass (env : Env) (s t : String) : Prop :=
  env.fileListExists = true ∧ env.fileListReadable = true ∧
  env.sourceAbs = some s ∧ env.sourceExists = true ∧
  env.targetAbs = some t ∧ env.targetExists = true ∧
  env.targetReadDir = some 0

instance (env : Env) (s t : String) : Decidable (preflightPass env s t) := by
  unfold preflightPass
  infer_instance

/-! ### Concrete environments used to instantiate the theorems -/

/-- A run whose target directory holds one entry (`targetReadDir = some 1`)
while everything earlier succeeds; one regular file is walked. -/
def envC1 : Env :=
  { fileListPath := "list.txt", fileListExists := true, fileListReadable := true,
    fileListContent := ['a'], sourceAbs := some "/s", sourceExists := true,
    walkItems := [.ok false "a" "/s/a"], targetAbs := some "/t",
    targetExists := true, targetReadDir := some 1, disableDryRun := false,
    fs := [("/s/a", [1])] }

/-- A run whose walk yields an unreadable entry followed by a regular
file; all preflight checks pass and the target is empty. -/
def envC3 : Env :=
  { fileListPath := "list.txt", fileListExists := true, fileListReadable := true,
    fileListContent := ['a'], sourceAbs := some "/s", sourceExists := true,
    walkItems := [.err, .ok false "a" "/s/a"], targetAbs := some "/t",
    targetExists := true, targetReadDir := some 0, disableDryRun := false,
    fs := [("/s/a", [1])] }

/-- A passing dry-run over a single walked file requested by the list. -/
def envW4 : Env :=
  { fileListPath := "list.txt", fileListExists := true, fileListReadable := true,
    fileListContent := ['a'], sourceAbs := some "/s", sourceExists := true,
    walkItems := [.ok false "a" "/s/a"], targetAbs := some "/t",
    targetExists := true, targetReadDir := some 0, disableDryRun := false,
    fs := [("/s/a", [1])] }

/-- A passing dry-run over a single walked file requested by the list. -/
def envW5 : Env :=
  { fileListPath := "list.txt", fileListExists := true, fileListReadable := true,
    fileListContent := ['a'], sourceAbs := some "/s", sourceExists := true,
    walkItems := [.ok false "a" "/s/a"], targetAbs := some "/t",
    targetExists := true, targetReadDir := some 0, disableDryRun := false,
    fs := [("/s/a", [1])] }

/-- A passing dry-run over a single walked file requested by the list. -/
def envW6 : Env :=
  { fileListPath := "list.txt", fileListExists := true, fileListReadable := true,
    fileListContent := ['a'], sourceAbs := some "/s", sourceExists := true,
    walkItems := [.ok false "a" "/s/a"], targetAbs := some "/t",
    targetExists := true, targetReadDir := some 0, disableDryRun := false,
    fs := [("/s/a", [1])] }

/-- A passing apply-mode run over a single walked file requested by the
list, whose bytes are `[7, 8]`. -/
def envW7 : Env :=
  { fileListPath := "list.txt", fileListExists := true, fileListReadable := true,
    fileListContent := ['a'], sourceAbs := some "/s", sourceExists := true,
    walkItems := [.ok false "a" "/s/a"], targetAbs := some "/t",
    targetExists := true, targetReadDir := some 0, disableDryRun := true,
    fs := [("/s/a", [7, 8])] }

/-- A run whose file-list path does not exist. -/
def envW8 : Env :=
  { fileListPath := "list.txt", fileListExists := false, fileListReadable := true,
    fileListContent := ['a'], sourceAbs := some "/s", sourceExists := true,
    walkItems := [.ok false "a" "/s/a"], targetAbs := some "/t",
    targetExists := true, targetReadDir := some 0, disableDryRun := false,
    fs := [("/s/a", [1])] }

/-- A run whose source directory fails absolute-path resolution. -/
def envW9 : Env :=
  { fileListPath := "list.txt", fileListExists := true, fileListReadable := true,
    fileListContent := ['a'], sourceAbs := none, sourceExists := true,
    walkItems := [.ok false "a" "/s/a"], targetAbs := some "/t",
    targetExists := true, targetReadDir := some 0, disableDryRun := false,
    fs := [("/s/a", [1])] }

/-! ### Association-list lemmas for the `HashMap` model -/

theorem lookupL_insertL {β : Type} (k k' : String) (v : β) (m : List (String × β)) :
    lookupL k (insertL k' v m) = if k' = k then some v else lookupL k m := by
  induction m with
  | nil => simp [insertL, lookupL]
  | cons e rest ih =>
    obtain ⟨a, b⟩ := e
    simp only [insertL]
    by_cases hak : a = k'
    · subst hak
      by_cases hk : a = k <;> simp [lookupL, hk]
    · rw [if_neg hak]
      simp only [lookupL, ih]
      by_cases hk : a = k
      · subst hk
        have hka : k' ≠ a := fun h => hak h.symm
        simp [lookupL, hka]
      · simp [lookupL, hk]

theorem mem_insertL {β : Type} (k : String) (v : β) (m : List (String × β))
    (e : String × β) (h : e ∈ insertL k v m) : e = (k, v) ∨ e ∈ m := by
  induction m with
  | nil => simpa [insertL] using h
  | cons f rest ih =>
    obtain ⟨a, b⟩ := f
    simp only [insertL] at h
    by_cases hak : a = k
    · rw [if_pos hak] at h
      rcases List.mem_cons.1 h with h1 | h1
      · exact Or.inl h1
      · exact Or.inr (List.mem_cons_of_mem _ h1)
    · rw [if_neg hak] at h
      rcases List.mem_cons.1 h with h1 | h1
      · exact Or.inr (h1 ▸ List.mem_cons_self _ _)
      · rcases ih h1 with h2 | h2
        · exact Or.inl h2
        · exact Or.inr (List.mem_cons_of_mem _ h2)

theorem mem_keys_insertL {β : Type} (k x : String) (v : β) (m : List (String × β)) :
    x ∈ (insertL k v m).map Prod.fst ↔ x = k ∨ x ∈ m.map Prod.fst := by
  induction m with
  | nil => simp [insertL]
  | cons f rest ih =>
    obtain ⟨a, b⟩ := f
    simp only [insertL]
    by_cases hak : a = k
    · subst hak
      rw [if_pos rfl]
      simp only [List.map_cons, List.mem_cons]
      tauto
    · rw [if_neg hak]
      simp only [List.map_cons, List.mem_cons, ih]
      tauto

theorem nodup_keys_insertL {β : Type} (k : String) (v : β) (m : List (String × β))
    (h : (m.map Prod.fst).Nodup) : ((insertL k v m).map Prod.fst).Nodup := by
  induction m with
  | nil => simp [insertL]
  | cons f rest ih =>
    obtain ⟨a, b⟩ := f
    simp only [insertL]
    by_cases hak : a = k
    · subst hak
      simpa using h
    · simp only [if_neg hak, List.map_cons, List.nodup_cons] at h ⊢
      refine ⟨fun hx => ?_, ih h.2⟩
      rcases (mem_keys_insertL k a v rest).1 hx with h1 | h1
      · exact hak h1
      · exact h.1 h1

theorem nodup_keys_foldl_insertL (files : List (String × String)) :
    ∀ m : List (String × String), (m.map Prod.fst).Nodup →
      ((files.foldl (fun m e => insertL e.1 e.2 m) m).map Prod.fst).Nodup := by
  induction files with
  | nil => intro m h; simpa using h
  | cons f rest ih =>
    intro m h
    exact ih _ (nodup_keys_insertL _ _ _ h)

theorem nodup_keys_buildIndex (files : List (String × String)) :
    ((buildIndex files).map Prod.fst).Nodup :=
  nodup_keys_foldl_insertL files [] (by simp)

theorem lookupL_append {β : Type} (k : String) (l₁ l₂ : List (String × β)) :
    lookupL k (l₁ ++ l₂) = (lookupL k l₁).orElse (fun _ => lookupL k l₂) := by
  induction l₁ with
  | nil => simp [lookupL, Option.orElse]
  | cons f rest ih =>
    obtain ⟨a, b⟩ := f
    simp only [List.cons_append, lookupL]
    by_cases hak : a = k <;> simp [hak, ih, Option.orElse]

theorem lookupL_foldl_insertL (files : List (String × String)) :
    ∀ (m : List (String × String)) (k : String),
      lookupL k (files.foldl (fun m e => insertL e.1 e.2 m) m) =
        (lookupL k files.reverse).orElse (fun _ => lookupL k m) := by
  induction files with
  | nil => intro m k; simp [lookupL, Option.orElse]
  | cons f rest ih =>
    intro m k
    obtain ⟨a, b⟩ := f
    simp only [List.foldl_cons, List.reverse_cons]
    rw [ih, lookupL_append, lookupL_insertL]
    cases h : lookupL k rest.reverse <;>
      by_cases hak : a = k <;>
        simp [lookupL, hak, Option.orElse, h]

theorem lookupL_buildIndex (files : List (String × String)) (k : String) :
    lookupL k (buildIndex files) = lookupL k files.reverse := by
  rw [buildIndex, lookupL_foldl_insertL]
  cases h : lookupL k files.reverse <;> simp [lookupL, Option.orElse, h]

theorem mem_buildIndex (files : List (String × String)) (e : String × String)
    (h : e ∈ buildIndex files) : e ∈ files := by
  rw [buildIndex] at h
  have main : ∀ (fs m : List (String × String)) (e : String × String),
      e ∈ fs.foldl (fun m f => insertL f.1 f.2 m) m → e ∈ fs ∨ e ∈ m := by
    intro fs
    induction fs with
    | nil => intro m e h; exact Or.inr h
    | cons f rest ih =>
      intro m e h
      rcases ih _ _ h with h1 | h1
      · exact Or.inl (List.mem_cons_of_mem _ h1)
      · rcases mem_insertL _ _ _ _ h1 with h2 | h2
        · exact Or.inl (by rw [h2]; exact List.mem_cons_self _ _)
        · exact Or.inr h2
  rcases main files [] e h with h1 | h1
  · exact h1
  · simp at h1

/-! ### Copy-loop lemmas -/

theorem copyLoop_dry (names : List String) (tgt : String) :
    ∀ (entries : List (String × String)) (log : List LogEvent)
      (fs : List (String × List Nat)),
      copyLoop false names tgt entries log fs =
        ⟨.completed,
          log ++ (reconciled names entries).map
            (fun e => .dryRun e.1 e.2 (targetPathOf tgt e.1)),
          fs⟩ := by
  intro entries
  induction entries with
  | nil => intro log fs; simp [copyLoop, reconciled]
  | cons e rest ih =>
    intro log fs
    obtain ⟨n, p⟩ := e
    simp only [copyLoop]
    by_cases hc : names.contains n = true
    · have hm : n ∈ names := List.elem_iff.1 hc
      rw [if_pos hc, if_neg (by simp), ih]
      simp [reconciled, List.filter_cons, hc, hm]
    · have hm : ¬n ∈ names := fun h => hc (List.elem_iff.2 h)
      rw [if_neg hc, ih]
      simp [reconciled, List.filter_cons, hc, hm]

theorem copyLoop_fs_untouched (d : Bool) (names : List String) (tgt : String) :
    ∀ (entries : List (String × String)) (log : List LogEvent)
      (fs : List (String × List Nat)) (q : String),
      (∀ e ∈ entries, q ≠ targetPathOf tgt e.1) →
      lookupL q (copyLoop d names tgt entries log fs).fs = lookupL q fs := by
  intro entries
  induction entries with
  | nil => intro log fs q _; simp [copyLoop]
  | cons e rest ih =>
    intro log fs q hq
    obtain ⟨n, p⟩ := e
    have hqn : q ≠ targetPathOf tgt n := hq (n, p) (List.mem_cons_self _ _)
    have hrest : ∀ e ∈ rest, q ≠ targetPathOf tgt e.1 :=
      fun e he => hq e (List.mem_cons_of_mem _ he)
    simp only [copyLoop]
    by_cases hc : names.contains n = true
    · rw [if_pos hc]
      by_cases hd : d = true

      · rw [if_pos hd]
        cases hb : lookupL p fs with
        | none => simp
        | some bytes =>
          simp only []
          rw [ih _ _ _ hrest, lookupL_insertL]
          rw [if_neg (fun h => hqn h.symm)]
      · rw [if_neg hd]
        exact ih _ _ _ hrest
    · rw [if_neg hc]
      exact ih _ _ _ hrest

theorem copyLoop_log_shape (d : Bool) (names : List String) (tgt : String) :
    ∀ (entries : List (String × String)) (log : List LogEvent)
      (fs : List (String × List Nat)),
      ∃ extra : List LogEvent,
        (copyLoop d names tgt entries log fs).log = log ++ extra ∧
        ∀ ev ∈ extra, ∃ e ∈ entries, names.contains e.1 = true ∧
          (ev = .copying e.1 e.2 (targetPathOf tgt e.1) ∨
            ev = .dryRun e.1 e.2 (targetPathOf tgt e.1)) := by
  intro entries
  induction entries with
  | nil =>
    intro log fs
    exact ⟨[], by simp [copyLoop], by simp⟩
  | cons e rest ih =>
    intro log fs
    obtain ⟨n, p⟩ := e
    simp only [copyLoop]
    by_cases hc : names.contains n = true
    · rw [if_pos hc]
      by_cases hd : d = true
      · rw [if_pos hd]
        cases hb : lookupL p fs with
        | none =>
          refine ⟨[.copying n p (targetPathOf tgt n)], by simp, ?_⟩
          intro ev hev
          rcases List.mem_singleton.1 hev with h
          exact ⟨(n, p), List.mem_cons_self _ _, hc, Or.inl h⟩
        | some bytes =>
          obtain ⟨extra, h1, h2⟩ := ih (log ++ [.copying n p (targetPathOf tgt n)])
            (insertL (targetPathOf tgt n) bytes fs)
          refine ⟨.copying n p (targetPathOf tgt n) :: extra, ?_, ?_⟩
          · rw [h1]; simp
          · intro ev hev
            rcases List.mem_cons.1 hev with h3 | h3
            · exact ⟨(n, p), List.mem_cons_self _ _, hc, Or.inl h3⟩
            · obtain ⟨e, he, hce, hev'⟩ := h2 ev h3
              exact ⟨e, List.mem_cons_of_mem _ he, hce, hev'⟩
      · rw [if_neg hd]
        obtain ⟨extra, h1, h2⟩ := ih (log ++ [.dryRun n p (targetPathOf tgt n)]) fs
        refine ⟨.dryRun n p (targetPathOf tgt n) :: extra, ?_, ?_⟩
        · rw [h1]; simp
        · intro ev hev
          rcases List.mem_cons.1 hev with h3 | h3
          · exact ⟨(n, p), List.mem_cons_self _ _, hc, Or.inr h3⟩
          · obtain ⟨e, he, hce, hev'⟩ := h2 ev h3
            exact ⟨e, List.mem_cons_of_mem _ he, hce, hev'⟩
    · rw [if_neg hc]
      obtain ⟨extra, h1, h2⟩ := ih log fs
      refine ⟨extra, h1, ?_⟩
      intro ev hev
      obtain ⟨e, he, hce, hev'⟩ := h2 ev hev
      exact ⟨e, List.mem_cons_of_mem _ he, hce, hev'⟩

theorem actedNames_append (l₁ l₂ : List LogEvent) :
    actedNames (l₁ ++ l₂) = actedNames l₁ ++ actedNames l₂ :=
  List.filterMap_append l₁ l₂ _

theorem copyLoop_actedNames (d : Bool) (names : List String) (tgt : String) :
    ∀ (entries : List (String × String)) (log : List LogEvent)
      (fs : List (String × List Nat)),
      ∃ s : List String,
        actedNames (copyLoop d names tgt entries log fs).log =
          actedNames log ++ s ∧
        s.Sublist (entries.map Prod.fst) := by
  intro entries
  induction entries with
  | nil =>
    intro log fs
    exact ⟨[], by simp [copyLoop], List.nil_sublist _⟩
  | cons e rest ih =>
    intro log fs
    obtain ⟨n, p⟩ := e
    simp only [copyLoop]
    by_cases hc : names.contains n = true
    · rw [if_pos hc]
      by_cases hd : d = true
      · rw [if_pos hd]
        cases hb : lookupL p fs with
        | none =>
          refine ⟨[n], ?_, ?_⟩
          · simp [actedNames_append, actedNames]
          · exact (List.nil_sublist _).cons₂ n
        | some bytes =>
          obtain ⟨s, h1, h2⟩ := ih (log ++ [.copying n p (targetPathOf tgt n)])
            (insertL (targetPathOf tgt n) bytes fs)
          refine ⟨n :: s, ?_, h2.cons₂ n⟩
          rw [h1, actedNames_append]
          simp [actedNames]
      · rw [if_neg hd]
        obtain ⟨s, h1, h2⟩ := ih (log ++ [.dryRun n p (targetPathOf tgt n)]) fs
        refine ⟨n :: s, ?_, h2.cons₂ n⟩
        rw [h1, actedNames_append]
        simp [actedNames]
    · rw [if_neg hc]
      obtain ⟨s, h1, h2⟩ := ih log fs
      exact ⟨s, h1, h2.cons n⟩

theorem runMain_pass (env : Env) (s t : String) (h : preflightPass env s t) :
    runMain env =
      copyLoop env.disableDryRun (rustLines env.fileListContent) t
        (buildIndex (walkFiles env.walkItems))
        (.readingFrom s :: (walkFiles env.walkItems).map (fun e => .inserting e.1))
        env.fs := by
  obtain ⟨h1, h2, h3, h4, h5, h6, h7⟩ := h
  unfold runMain
  rw [h1, h2, h3, h5, h7, h4, h6]
  simp

theorem walkFiles_filter_errs (items : List WalkItem) :
    walkFiles (items.filter fun it => !it.isErr) = walkFiles items := by
  induction items with
  | nil => rfl
  | cons it rest ih =>
    cases it with
    | ok d n p =>
      cases d <;> simp [walkFiles, WalkItem.isErr, List.filter_cons] at ih ⊢ <;>
        exact ih
    | err =>
      simp [walkFiles, WalkItem.isErr, List.filter_cons] at ih ⊢
      exact ih

theorem targetPathOf_inj (tgt : String) {a b : String}
    (h : targetPathOf tgt a = targetPathOf tgt b) : a = b := by
  unfold targetPathOf at h
  have hd := congrArg String.data h
  simp only [String.data_append] at hd
  have hdata := List.append_cancel_left hd
  cases a; cases b
  exact congrArg String.mk (by simpa using hdata)

theorem copyLoop_apply_ok (names : List String) (tgt : String) :
    ∀ (entries : List (String × String)) (log : List LogEvent)
      (fs : List (String × List Nat)),
      (entries.map Prod.fst).Nodup →
      (∀ e ∈ entries, names.contains e.1 = true →
        ∀ e' ∈ entries, e.2 ≠ targetPathOf tgt e'.1) →
      (∀ e ∈ entries, names.contains e.1 = true → lookupL e.2 fs ≠ none) →
      (copyLoop true names tgt entries log fs).outcome = .completed ∧
      ∀ e ∈ entries, names.contains e.1 = true →
        lookupL (targetPathOf tgt e.1) (copyLoop true names tgt entries log fs).fs =
          lookupL e.2 fs := by
  intro entries
  induction entries with
  | nil =>
    intro log fs _ _ _
    exact ⟨by simp [copyLoop], by simp⟩
  | cons e rest ih =>
    intro log fs hnd hdisj hsrc
    obtain ⟨n, p⟩ := e
    have hnd' : (rest.map Prod.fst).Nodup :=
      (List.nodup_cons.1 (by simpa using hnd)).2
    have hn_not : n ∉ rest.map Prod.fst :=
      (List.nodup_cons.1 (by simpa using hnd)).1
    have htp_rest : ∀ e' ∈ rest, targetPathOf tgt n ≠ targetPathOf tgt e'.1 := by
      intro e' he' heq
      exact hn_not (by
        rw [targetPathOf_inj tgt heq]
        exact List.mem_map_of_mem Prod.fst he')
    by_cases hc : names.contains n = true
    · have hsome : lookupL p fs ≠ none := hsrc (n, p) (List.mem_cons_self _ _) hc
      cases hb : lookupL p fs with
      | none => exact absurd hb hsome
      | some bytes =>
        simp only [copyLoop]
        rw [if_pos hc]
        simp only [if_true]
        rw [hb]
        have hdisj' : ∀ e ∈ rest, names.contains e.1 = true →
            ∀ e' ∈ rest, e.2 ≠ targetPathOf tgt e'.1 := by
          intro e he hce e' he'
          exact hdisj e (List.mem_cons_of_mem _ he) hce e' (List.mem_cons_of_mem _ he')
        have hsrc' : ∀ e ∈ rest, names.contains e.1 = true →
            lookupL e.2 (insertL (targetPathOf tgt n) bytes fs) ≠ none := by
          intro e he hce
          have hne : e.2 ≠ targetPathOf tgt n :=
            hdisj e (List.mem_cons_of_mem _ he) hce (n, p) (List.mem_cons_self _ _)
          rw [lookupL_insertL, if_neg (fun h => hne h.symm)]
          exact hsrc e (List.mem_cons_of_mem _ he) hce
        obtain ⟨hout, hall⟩ :=
          ih (log ++ [.copying n p (targetPathOf tgt n)])
            (insertL (targetPathOf tgt n) bytes fs) hnd' hdisj' hsrc'
        refine ⟨hout, ?_⟩
        intro e he hce
        rcases List.mem_cons.1 he with he1 | he1
        · rw [he1]
          rw [copyLoop_fs_untouched true names tgt rest _ _ _ htp_rest]
          rw [lookupL_insertL, if_pos rfl, hb]
        · rw [hall e he1 hce, lookupL_insertL]
          have hne : e.2 ≠ targetPathOf tgt n :=
            hdisj e (List.mem_cons_of_mem _ he1) hce (n, p) (List.mem_cons_self _ _)
          rw [if_neg (fun h => hne h.symm)]
    · simp only [copyLoop]
      rw [if_neg hc]
      have hdisj' : ∀ e ∈ rest, names.contains e.1 = true →
          ∀ e' ∈ rest, e.2 ≠ targetPathOf tgt e'.1 := by
        intro e he hce e' he'
        exact hdisj e (List.mem_cons_of_mem _ he) hce e' (List.mem_cons_of_mem _ he')
      have hsrc' : ∀ e ∈ rest, names.contains e.1 = true → lookupL e.2 fs ≠ none :=
        fun e he hce => hsrc e (List.mem_cons_of_mem _ he) hce
      obtain ⟨hout, hall⟩ := ih log fs hnd' hdisj' hsrc'
      refine ⟨hout, ?_⟩
      intro e he hce
      rcases List.mem_cons.1 he with he1 | he1
      · rw [he1] at hce
        exact absurd hce hc
      · exact hall e he1 hce

theorem copyLoop_apply_fail (names : List String) (tgt : String) :
    ∀ (pre : List (String × String)) (bad : String × String)
      (post : List (String × String)) (log : List LogEvent)
      (fs : List (String × List Nat)),
      ((pre ++ bad :: post).map Prod.fst).Nodup →
      (∀ e ∈ pre ++ bad :: post, names.contains e.1 = true →
        ∀ e' ∈ pre ++ bad :: post, e.2 ≠ targetPathOf tgt e'.1) →
      (∀ e ∈ pre, names.contains e.1 = true → lookupL e.2 fs ≠ none) →
      names.contains bad.1 = true → lookupL bad.2 fs = none →
      (copyLoop true names tgt (pre ++ bad :: post) log fs).outcome =
        .panicked "Cannot copy file." ∧
      ∀ e ∈ pre, names.contains e.1 = true →
        lookupL (targetPathOf tgt e.1)
            (copyLoop true names tgt (pre ++ bad :: post) log fs).fs =
          lookupL e.2 fs := by
  intro pre
  induction pre with
  | nil =>
    intro bad post log fs _ _ _ hcbad hbad
    obtain ⟨nb, pb⟩ := bad
    simp only [List.nil_append, copyLoop]
    rw [if_pos hcbad]
    simp only [if_true]
    rw [hbad]
    exact ⟨rfl, by simp⟩
  | cons e pre' ih =>
    intro bad post log fs hnd hdisj hsrc hcbad hbad
    obtain ⟨n, p⟩ := e
    have hnd' : ((pre' ++ bad :: post).map Prod.fst).Nodup :=
      (List.nodup_cons.1 (by simpa using hnd)).2
    have hn_not : n ∉ (pre' ++ bad :: post).map Prod.fst :=
      (List.nodup_cons.1 (by simpa using hnd)).1
    have htp_rest : ∀ e' ∈ pre' ++ bad :: post,
        targetPathOf tgt n ≠ targetPathOf tgt e'.1 := by
      intro e' he' heq
      exact hn_not (by
        rw [targetPathOf_inj tgt heq]
        exact List.mem_map_of_mem Prod.fst he')
    have hdisj' : ∀ e ∈ pre' ++ bad :: post, names.contains e.1 = true →
        ∀ e' ∈ pre' ++ bad :: post, e.2 ≠ targetPathOf tgt e'.1 := by
      intro e he hce e' he'
      exact hdisj e (List.mem_cons_of_mem _ he) hce e' (List.mem_cons_of_mem _ he')
    have hbad_mem : bad ∈ (n, p) :: (pre' ++ bad :: post) :=
      List.mem_cons_of_mem _ (List.mem_append_right _ (List.mem_cons_self _ _))
    by_cases hc : names.contains n = true
    · have hsome : lookupL p fs ≠ none :=
        hsrc (n, p) (List.mem_cons_self _ _) hc
      cases hb : lookupL p fs with
      | none => exact absurd hb hsome
      | some bytes =>
        simp only [List.cons_append, copyLoop]
        rw [if_pos hc]
        simp only [if_true]
        rw [hb]
        dsimp only [List.append_eq]
        have hsrc' : ∀ e ∈ pre', names.contains e.1 = true →
            lookupL e.2 (insertL (targetPathOf tgt n) bytes fs) ≠ none := by
          intro e he hce
          have hne : e.2 ≠ targetPathOf tgt n :=
            hdisj e (List.mem_cons_of_mem _ (List.mem_append_left _ he)) hce
              (n, p) (List.mem_cons_self _ _)
          rw [lookupL_insertL, if_neg (fun h => hne h.symm)]
          exact hsrc e (List.mem_cons_of_mem _ he) hce
        have hbad' : lookupL bad.2 (insertL (targetPathOf tgt n) bytes fs) = none := by
          have hne : bad.2 ≠ targetPathOf tgt n :=
            hdisj bad hbad_mem hcbad (n, p) (List.mem_cons_self _ _)
          rw [lookupL_insertL, if_neg (fun h => hne h.symm)]
          exact hbad
        obtain ⟨hout, hall⟩ :=
          ih bad post (log ++ [.copying n p (targetPathOf tgt n)])
            (insertL (targetPathOf tgt n) bytes fs) hnd' hdisj' hsrc' hcbad hbad'
        refine ⟨hout, ?_⟩
        intro e he hce
        rcases List.mem_cons.1 he with he1 | he1
        · rw [he1]
          rw [copyLoop_fs_untouched true names tgt (pre' ++ bad :: post) _ _ _ htp_rest]
          rw [lookupL_insertL, if_pos rfl, hb]
        · rw [hall e he1 hce, lookupL_insertL]
          have hne : e.2 ≠ targetPathOf tgt n :=
            hdisj e (List.mem_cons_of_mem _ (List.mem_append_left _ he1)) hce
              (n, p) (List.mem_cons_self _ _)
          rw [if_neg (fun h => hne h.symm)]
    · simp only [List.cons_append, copyLoop]
      rw [if_neg hc]
      have hsrc' : ∀ e ∈ pre', names.contains e.1 = true → lookupL e.2 fs ≠ none :=
        fun e he hce => hsrc e (List.mem_cons_of_mem _ he) hce
      obtain ⟨hout, hall⟩ := ih bad post log fs hnd' hdisj' hsrc' hcbad hbad
      refine ⟨hout, ?_⟩
      intro e he hce
      rcases List.mem_cons.1 he with he1 | he1
      · rw [he1] at hce
        exact absurd hce hc
      · exact hall e he1 hce

/-! ### Line-splitting refinement lemmas -/

theorem splitNL_ne_nil (content : List Char) : splitNL content ≠ [] := by
  cases content with
  | nil => simp [splitNL]
  | cons c rest =>
    simp only [splitNL]
    by_cases h : c = '\n'
    · simp [h]
    · rw [if_neg h]
      cases h2 : splitNL rest <;> simp

theorem splitNL_no_nl (l : List Char) (h : '\n' ∉ l) : splitNL l = [l] := by
  induction l with
  | nil => rfl
  | cons c rest ih =>
    have hc : c ≠ '\n' := fun e => h (by simp [e])
    simp only [splitNL]
    rw [if_neg hc, ih (fun hm => h (List.mem_cons_of_mem _ hm))]

theorem splitNL_append_no_nl (l : List Char) (h : '\n' ∉ l) (content : List Char)
    (s : List Char) (ss : List (List Char)) (h2 : splitNL content = s :: ss) :
    splitNL (l ++ content) = (l ++ s) :: ss := by
  induction l with
  | nil => simpa using h2
  | cons c rest ih =>
    have hc : c ≠ '\n' := fun e => h (by simp [e])
    simp only [List.cons_append, splitNL]
    dsimp only [List.append_eq]
    rw [if_neg hc, ih (fun hm => h (List.mem_cons_of_mem _ hm))]

theorem rustLinesAux_spec (content : List Char) :
    ∀ cur : List Char, '\n' ∉ cur →
      rustLinesAux cur content = specLines (cur.reverse ++ content) := by
  induction content with
  | nil =>
    intro cur h
    simp only [rustLinesAux, List.append_nil]
    have hrev : '\n' ∉ cur.reverse := by simpa using h
    by_cases hc : cur.isEmpty = true
    · have hnil : cur = [] := by
        cases cur with
        | nil => rfl
        | cons a l => simp [List.isEmpty] at hc
      subst hnil
      simp [specLines, splitNL]
    · have hne : cur ≠ [] := by
        intro e
        rw [e] at hc
        simp [List.isEmpty] at hc
      rw [if_neg hc]
      rw [specLines, splitNL_no_nl _ hrev]
      cases hcr : cur.reverse with
      | nil =>
        exact absurd (by simpa using congrArg List.reverse hcr) hne
      | cons a l => simp
  | cons c rest ih =>
    intro cur h
    have hrev : '\n' ∉ cur.reverse := by simpa using h
    simp only [rustLinesAux]
    by_cases hc : c = '\n'
    · subst hc
      rw [if_pos rfl, ih [] (by simp)]
      have h1 : splitNL ('\n' :: rest) = [] :: splitNL rest := by
        simp [splitNL]
      have h2 : splitNL (cur.reverse ++ '\n' :: rest) = cur.reverse :: splitNL rest := by
        have := splitNL_append_no_nl cur.reverse hrev ('\n' :: rest) [] (splitNL rest) h1
        simpa using this
      cases h3 : splitNL rest with
      | nil => exact absurd h3 (splitNL_ne_nil rest)
      | cons s ss =>
        rw [h3] at h2
        simp only [specLines, h2, h3]
        cases h4 : (s :: ss).getLast? with
        | none => simp at h4
        | some last =>
          cases last with
          | nil =>
            simp [h3, h4, List.dropLast_cons₂]
          | cons a l =>
            simp [h3, h4, List.dropLast_cons₂]
    · rw [if_neg hc]
      rw [ih (c :: cur) (by
        intro hm
        rcases List.mem_cons.1 hm with hm1 | hm1
        · exact hc hm1.symm
        · exact h hm1)]
      simp [List.reverse_cons, List.append_assoc]

theorem rustLines_eq_specLines (content : List Char) :
    rustLines content = specLines content := by
  have := rustLinesAux_spec content [] (by simp)
  simpa [rustLines] using this

/-! ### Branch equations for `runMain` -/

theorem runMain_eq_noList (env : Env) (h1 : env.fileListExists = false) :
    runMain env = ⟨.earlyExit (.fileListMissing env.fileListPath), [], env.fs⟩ := by
  simp [runMain, h1]

theorem runMain_eq_unreadableList (env : Env) (h1 : env.fileListExists = true)
    (h2 : env.fileListReadable = false) :
    runMain env = ⟨.panicked "ERROR: Cannot open file.", [], env.fs⟩ := by
  simp [runMain, h1, h2]

theorem runMain_eq_srcResFail (env : Env) (h1 : env.fileListExists = true)
    (h2 : env.fileListReadable = true) (h3 : env.sourceAbs = none) :
    runMain env =
      ⟨.panicked "ERROR: Problem with file (source resolution)", [], env.fs⟩ := by
  simp [runMain, h1, h2, h3]

theorem runMain_eq_srcMissing (env : Env) (s : String) (h1 : env.fileListExists = true)
    (h2 : env.fileListReadable = true) (h3 : env.sourceAbs = some s)
    (h4 : env.sourceExists = false) :
    runMain env = ⟨.earlyExit (.sourceMissing s), [], env.fs⟩ := by
  simp [runMain, h1, h2, h3, h4]

theorem runMain_eq_tgtResFail (env : Env) (s : String) (h1 : env.fileListExists = true)
    (h2 : env.fileListReadable = true) (h3 : env.sourceAbs = some s)
    (h4 : env.sourceExists = true) (h5 : env.targetAbs = none) :
    runMain env =
      ⟨.panicked "ERROR: Problem with file (target resolution)",
        .readingFrom s :: (walkFiles env.walkItems).map (fun e => .inserting e.1),
        env.fs⟩ := by
  simp [runMain, h1, h2, h3, h4, h5]

theorem runMain_eq_tgtMissing (env : Env) (s t : String) (h1 : env.fileListExists = true)
    (h2 : env.fileListReadable = true) (h3 : env.sourceAbs = some s)
    (h4 : env.sourceExists = true) (h5 : env.targetAbs = some t)
    (h6 : env.targetExists = false) :
    runMain env =
      ⟨.earlyExit (.targetMissing t),
        .readingFrom s :: (walkFiles env.walkItems).map (fun e => .inserting e.1),
        env.fs⟩ := by
  simp [runMain, h1, h2, h3, h4, h5, h6]

theorem runMain_eq_readDirFail (env : Env) (s t : String) (h1 : env.fileListExists = true)
    (h2 : env.fileListReadable = true) (h3 : env.sourceAbs = some s)
    (h4 : env.sourceExists = true) (h5 : env.targetAbs = some t)
    (h6 : env.targetExists = true) (h7 : env.targetReadDir = none) :
    runMain env =
      ⟨.panicked "read_dir failed",
        .readingFrom s :: (walkFiles env.walkItems).map (fun e => .inserting e.1),
        env.fs⟩ := by
  simp [runMain, h1, h2, h3, h4, h5, h6, h7]

theorem runMain_eq_tgtNotEmpty (env : Env) (s t : String) (n : Nat)
    (h1 : env.fileListExists = true) (h2 : env.fileListReadable = true)
    (h3 : env.sourceAbs = some s) (h4 : env.sourceExists = true)
    (h5 : env.targetAbs = some t) (h6 : env.targetExists = true)
    (h7 : env.targetReadDir = some n) (h8 : n ≠ 0) :
    runMain env =
      ⟨.earlyExit (.targetNotEmpty t),
        .readingFrom s :: (walkFiles env.walkItems).map (fun e => .inserting e.1),
        env.fs⟩ := by
  simp [runMain, h1, h2, h3, h4, h5, h6, h7, h8]

theorem runMain_log_cases (env : Env) :
    ((runMain env).log = [] ∧ (runMain env).fs = env.fs) ∨
    (∃ s, (runMain env).log =
      (.readingFrom s :: (walkFiles env.walkItems).map (fun e => .inserting e.1) :
        List LogEvent) ∧ (runMain env).fs = env.fs) ∨
    (∃ s t, preflightPass env s t ∧
      runMain env =
        copyLoop env.disableDryRun (rustLines env.fileListContent) t
          (buildIndex (walkFiles env.walkItems))
          (.readingFrom s :: (walkFiles env.walkItems).map (fun e => .inserting e.1))
          env.fs) := by
  cases h1 : env.fileListExists with
  | false => exact Or.inl ⟨by rw [runMain_eq_noList env h1], by rw [runMain_eq_noList env h1]⟩
  | true =>
    cases h2 : env.fileListReadable with
    | false =>
      exact Or.inl ⟨by rw [runMain_eq_unreadableList env h1 h2],
        by rw [runMain_eq_unreadableList env h1 h2]⟩
    | true =>
      cases h3 : env.sourceAbs with
      | none =>
        exact Or.inl ⟨by rw [runMain_eq_srcResFail env h1 h2 h3],
          by rw [runMain_eq_srcResFail env h1 h2 h3]⟩
      | some s =>
        cases h4 : env.sourceExists with
        | false =>
          exact Or.inl ⟨by rw [runMain_eq_srcMissing env s h1 h2 h3 h4],
            by rw [runMain_eq_srcMissing env s h1 h2 h3 h4]⟩
        | true =>
          cases h5 : env.targetAbs with
          | none =>
            exact Or.inr (Or.inl ⟨s, by rw [runMain_eq_tgtResFail env s h1 h2 h3 h4 h5],
              by rw [runMain_eq_tgtResFail env s h1 h2 h3 h4 h5]⟩)
          | some t =>
            cases h6 : env.targetExists with
            | false =>
              exact Or.inr (Or.inl ⟨s,
                by rw [runMain_eq_tgtMissing env s t h1 h2 h3 h4 h5 h6],
                by rw [runMain_eq_tgtMissing env s t h1 h2 h3 h4 h5 h6]⟩)
            | true =>
              cases h7 : env.targetReadDir with
              | none =>
                exact Or.inr (Or.inl ⟨s,
                  by rw [runMain_eq_readDirFail env s t h1 h2 h3 h4 h5 h6 h7],
                  by rw [runMain_eq_readDirFail env s t h1 h2 h3 h4 h5 h6 h7]⟩)
              | some n =>
                by_cases h8 : n = 0
                · subst h8
                  exact Or.inr (Or.inr ⟨s, t, ⟨h1, h2, h3, h4, h5, h6, h7⟩,
                    runMain_pass env s t ⟨h1, h2, h3, h4, h5, h6, h7⟩⟩)
                · exact Or.inr (Or.inl ⟨s,
                    by rw [runMain_eq_tgtNotEmpty env s t n h1 h2 h3 h4 h5 h6 h7 h8],
                    by rw [runMain_eq_tgtNotEmpty env s t n h1 h2 h3 h4 h5 h6 h7 h8]⟩)

theorem contains_iff_mem_str (l : List String) (a : String) :
    l.contains a = true ↔ a ∈ l :=
  List.elem_iff

theorem actedNames_base (s : String) (files : List (String × String)) :
    actedNames (.readingFrom s :: files.map fun e => .inserting e.1) = [] := by
  simp only [actedNames, List.filterMap_cons]
  rw [List.filterMap_map]
  exact List.filterMap_eq_nil_iff.2 fun a _ => rfl

/-! ### Claim theorems -/

/-- C4: the source index maps each base name to exactly one full path
(its key list has no duplicates); the retained binding for a base name is
the one of the most recently visited file (`lookupL k files.reverse` is
the last binding in traversal order); every index entry is one of the
walked files; and every `Copying`/`DRY RUN` decision of a whole run acts
on a pair of the built index, so only retained entries determine what is
copied. -/
theorem sourceIndex_last_write_wins :
    (∀ files : List (String × String),
      ((buildIndex files).map Prod.fst).Nodup ∧
      (∀ k, lookupL k (buildIndex files) = lookupL k files.reverse) ∧
      (∀ e, e ∈ buildIndex files → e ∈ files)) ∧
    (∀ (env : Env) (n p tp : String),
      (LogEvent.copying n p tp ∈ (runMain env).log ∨
        LogEvent.dryRun n p tp ∈ (runMain env).log) →
      (n, p) ∈ buildIndex (walkFiles env.walkItems)) := by
  constructor
  · intro files
    exact ⟨nodup_keys_buildIndex files, fun k => lookupL_buildIndex files k,
      fun e he => mem_buildIndex files e he⟩
  · intro env n p tp h
    rcases runMain_log_cases env with ⟨h1, _⟩ | ⟨s, h1, _⟩ | ⟨s, t, _, h1⟩
    · rw [h1] at h
      simp at h
    · rw [h1] at h
      simp [List.mem_map] at h
    · rw [h1] at h
      obtain ⟨extra, hsh, hprop⟩ :=
        copyLoop_log_shape env.disableDryRun (rustLines env.fileListContent) t
          (buildIndex (walkFiles env.walkItems))
          (.readingFrom s :: (walkFiles env.walkItems).map (fun e => .inserting e.1))
          env.fs
      rw [hsh] at h
      rcases h with h | h
      · rcases List.mem_append.1 h with h2 | h2
        · simp [List.mem_map] at h2
        · obtain ⟨e, he, _, hev⟩ := hprop _ h2
          rcases hev with hev | hev
          · simp only [LogEvent.copying.injEq] at hev
            obtain ⟨hn, hp2, _⟩ := hev
            have he' : (n, p) = e := by rw [hn, hp2]
            rw [he']
            exact he
          · simp at hev
      · rcases List.mem_append.1 h with h2 | h2
        · simp [List.mem_map] at h2
        · obtain ⟨e, he, _, hev⟩ := hprop _ h2
          rcases hev with hev | hev
          · simp at hev
          · simp only [LogEvent.dryRun.injEq] at hev
            obtain ⟨hn, hp2, _⟩ := hev
            have he' : (n, p) = e := by rw [hn, hp2]
            rw [he']
            exact he

/-- Witness for C4 at concrete inputs: the index of two files sharing the
base name `a` retains the later path `p2`, and the dry-run decision taken
by `runMain` on `envW4` acts on a pair of the built index. -/
theorem sourceIndex_last_write_wins_witness :
    ("a", "p2") ∈ [("a", "p1"), ("a", "p2")] ∧
    ("a", "/s/a") ∈ buildIndex (walkFiles envW4.walkItems) :=
  ⟨by
    have h := (sourceIndex_last_write_wins.1 [("a", "p1"), ("a", "p2")]).2.2
      ("a", "p2") (by decide)
    exact h,
   sourceIndex_last_write_wins.2 envW4 "a" "/s/a" (targetPathOf "/t" "a")
    (Or.inr (by decide))⟩

/-- C5: with the dry-run default (`disable_dry_run` false) the file
contents of the world are unchanged by the whole run: no file is created,
modified or deleted. -/
theorem dry_run_no_mutation (env : Env) (h : env.disableDryRun = false) :
    (runMain env).fs = env.fs := by
  rcases runMain_log_cases env with ⟨_, h1⟩ | ⟨s, _, h1⟩ | ⟨s, t, _, h1⟩
  · exact h1
  · exact h1
  · rw [h1, h, copyLoop_dry]

/-- Witness for C5: the dry run on `envW5` leaves the file contents
untouched. -/
theorem dry_run_no_mutation_witness : (runMain envW5).fs = envW5.fs :=
  dry_run_no_mutation envW5 rfl

/-- C8: each of the four precondition failures (missing list file,
missing source directory, missing target directory, non-empty target
directory) ends the run with a clean early exit whose message carries the
offending path — not a panic — and leaves the file contents unchanged. -/
theorem precondition_clean_exit (env : Env) :
    (env.fileListExists = false →
      (runMain env).outcome = .earlyExit (.fileListMissing env.fileListPath) ∧
      (runMain env).fs = env.fs) ∧
    (∀ s, env.fileListExists = true → env.fileListReadable = true →
      env.sourceAbs = some s → env.sourceExists = false →
      (runMain env).outcome = .earlyExit (.sourceMissing s) ∧
      (runMain env).fs = env.fs) ∧
    (∀ s t, env.fileListExists = true → env.fileListReadable = true →
      env.sourceAbs = some s → env.sourceExists = true →
      env.targetAbs = some t → env.targetExists = false →
      (runMain env).outcome = .earlyExit (.targetMissing t) ∧
      (runMain env).fs = env.fs) ∧
    (∀ s t n, env.fileListExists = true → env.fileListReadable = true →
      env.sourceAbs = some s → env.sourceExists = true →
      env.targetAbs = some t → env.targetExists = true →
      env.targetReadDir = some n → n ≠ 0 →
      (runMain env).outcome = .earlyExit (.targetNotEmpty t) ∧
      (runMain env).fs = env.fs) := by
  refine ⟨fun h1 => ?_, fun s h1 h2 h3 h4 => ?_, fun s t h1 h2 h3 h4 h5 h6 => ?_,
    fun s t n h1 h2 h3 h4 h5 h6 h7 h8 => ?_⟩
  · rw [runMain_eq_noList env h1]
    exact ⟨rfl, rfl⟩
  · rw [runMain_eq_srcMissing env s h1 h2 h3 h4]
    exact ⟨rfl, rfl⟩
  · rw [runMain_eq_tgtMissing env s t h1 h2 h3 h4 h5 h6]
    exact ⟨rfl, rfl⟩
  · rw [runMain_eq_tgtNotEmpty env s t n h1 h2 h3 h4 h5 h6 h7 h8]
    exact ⟨rfl, rfl⟩

/-- Witness for C8: on `envW8` (file-list path missing) the run exits
cleanly naming the path, leaving the file contents unchanged. -/
theorem precondition_clean_exit_witness :
    (runMain envW8).outcome = .earlyExit (.fileListMissing "list.txt") ∧
    (runMain envW8).fs = envW8.fs :=
  (precondition_clean_exit envW8).1 rfl

/-- C9: a failed absolute-path resolution of the source or target
directory is a panic (fatal abort with a diagnostic), while a resolved
path that does not exist is a clean early exit; the two outcomes are
distinct constructors and never coincide. -/
theorem resolution_panic_vs_missing_exit (env : Env) :
    (env.fileListExists = true → env.fileListReadable = true →
      env.sourceAbs = none →
      (runMain env).outcome =
        .panicked "ERROR: Problem with file (source resolution)") ∧
    (∀ s, env.fileListExists = true → env.fileListReadable = true →
      env.sourceAbs = some s → env.sourceExists = false →
      (runMain env).outcome = .earlyExit (.sourceMissing s)) ∧
    (∀ s, env.fileListExists = true → env.fileListReadable = true →
      env.sourceAbs = some s → env.sourceExists = true →
      env.targetAbs = none →
      (runMain env).outcome =
        .panicked "ERROR: Problem with file (target resolution)") ∧
    (∀ s t, env.fileListExists = true → env.fileListReadable = true →
      env.sourceAbs = some s → env.sourceExists = true →
      env.targetAbs = some t → env.targetExists = false →
      (runMain env).outcome = .earlyExit (.targetMissing t)) ∧
    (∀ e m, Outcome.earlyExit e ≠ Outcome.panicked m) := by
  refine ⟨fun h1 h2 h3 => ?_, fun s h1 h2 h3 h4 => ?_, fun s h1 h2 h3 h4 h5 => ?_,
    fun s t h1 h2 h3 h4 h5 h6 => ?_, fun e m => by simp⟩
  · rw [runMain_eq_srcResFail env h1 h2 h3]
  · rw [runMain_eq_srcMissing env s h1 h2 h3 h4]
  · rw [runMain_eq_tgtResFail env s h1 h2 h3 h4 h5]
  · rw [runMain_eq_tgtMissing env s t h1 h2 h3 h4 h5 h6]

/-- Witness for C9: on `envW9` (source resolution fails) the run
panics with the resolution diagnostic. -/
theorem resolution_panic_vs_missing_exit_witness :
    (runMain envW9).outcome =
      .panicked "ERROR: Problem with file (source resolution)" :=
  (resolution_panic_vs_missing_exit envW9).1 rfl rfl rfl

/-- C10: every base name is acted on at most once per run — the list of
base names carrying a `Copying` or `DRY RUN` decision has no duplicates —
because the copy loop iterates the deduplicated source index; and the
loop consults the requested-name list only through membership, so
deduplicating the list file's lines changes nothing. -/
theorem names_acted_at_most_once :
    (∀ env : Env, (actedNames (runMain env).log).Nodup) ∧
    (∀ (d : Bool) (names : List String) (tgt : String)
        (entries : List (String × String)) (log : List LogEvent)
        (fs : List (String × List Nat)),
      copyLoop d names.dedup tgt entries log fs =
        copyLoop d names tgt entries log fs) := by
  constructor
  · intro env
    rcases runMain_log_cases env with ⟨h1, _⟩ | ⟨s, h1, _⟩ | ⟨s, t, _, h1⟩
    · rw [h1]
      simp [actedNames]
    · rw [h1, actedNames_base]
      exact List.nodup_nil
    · rw [h1]
      obtain ⟨sl, hsh, hsub⟩ :=
        copyLoop_actedNames env.disableDryRun (rustLines env.fileListContent) t
          (buildIndex (walkFiles env.walkItems))
          (.readingFrom s :: (walkFiles env.walkItems).map (fun e => .inserting e.1))
          env.fs
      rw [hsh, actedNames_base]
      simpa using hsub.nodup (nodup_keys_buildIndex _)
  · intro d names tgt entries
    induction entries with
    | nil => intro log fs; rfl
    | cons e rest ih =>
      intro log fs
      obtain ⟨n, p⟩ := e
      have hcd : names.dedup.contains n = names.contains n := by
        by_cases h : n ∈ names
        · rw [(contains_iff_mem_str _ _).2 (List.mem_dedup.2 h),
            (contains_iff_mem_str _ _).2 h]
        · have hd1 : names.dedup.contains n = false := by
            cases hx : names.dedup.contains n
            · rfl
            · exact absurd (List.mem_dedup.1 ((contains_iff_mem_str _ _).1 hx)) h
          have hd2 : names.contains n = false := by
            cases hx : names.contains n
            · rfl
            · exact absurd ((contains_iff_mem_str _ _).1 hx) h
          rw [hd1, hd2]
      simp only [copyLoop, hcd]
      by_cases hc : names.contains n = true
      · rw [if_pos hc, if_pos hc]
        by_cases hd : d = true
        · rw [if_pos hd, if_pos hd]
          cases hb : lookupL p fs
          · rfl
          · exact ih _ _
        · rw [if_neg hd, if_neg hd]
          exact ih _ _
      · rw [if_neg hc, if_neg hc]
        exact ih _ _

/-- C1 counterexample: on `envC1` the target directory is non-empty and
every earlier check passes, yet the run has already indexed the walked
file `a` (an `Inserting` line is in the log) before halting with the
"target not empty" message — so the four checks do NOT all complete
before source-tree indexing begins. -/
theorem preflight_order_cex :
    (runMain envC1).outcome = .earlyExit (.targetNotEmpty "/t") ∧
    LogEvent.inserting "a" ∈ (runMain envC1).log := by
  constructor
  · rfl
  · decide

/-- C1 (amended): the checks fire in source order — missing list file
first (before any indexing), then missing source directory (still before
any indexing), then missing target directory, then non-empty target — but
source-tree indexing runs after the source-directory check and before the
two target checks: when the target directory is missing or non-empty, the
run halts before any copy decision, yet with every walked file already
indexed. -/
theorem preflight_order_amended (env : Env) :
    (env.fileListExists = false →
      (runMain env).outcome = .earlyExit (.fileListMissing env.fileListPath) ∧
      (runMain env).log = []) ∧
    (∀ s, env.fileListExists = true → env.fileListReadable = true →
      env.sourceAbs = some s → env.sourceExists = false →
      (runMain env).outcome = .earlyExit (.sourceMissing s) ∧
      (runMain env).log = []) ∧
    (∀ s t, env.fileListExists = true → env.fileListReadable = true →
      env.sourceAbs = some s → env.sourceExists = true →
      env.targetAbs = some t → env.targetExists = false →
      (runMain env).outcome = .earlyExit (.targetMissing t) ∧
      ∀ e ∈ walkFiles env.walkItems,
        LogEvent.inserting e.1 ∈ (runMain env).log) ∧
    (∀ s t n, env.fileListExists = true → env.fileListReadable = true →
      env.sourceAbs = some s → env.sourceExists = true →
      env.targetAbs = some t → env.targetExists = true →
      env.targetReadDir = some n → n ≠ 0 →
      (runMain env).outcome = .earlyExit (.targetNotEmpty t) ∧
      (runMain env).fs = env.fs ∧
      (∀ nm p tp, LogEvent.copying nm p tp ∉ (runMain env).log ∧
        LogEvent.dryRun nm p tp ∉ (runMain env).log) ∧
      ∀ e ∈ walkFiles env.walkItems,
        LogEvent.inserting e.1 ∈ (runMain env).log) := by
  refine ⟨fun h1 => ?_, fun s h1 h2 h3 h4 => ?_, fun s t h1 h2 h3 h4 h5 h6 => ?_,
    fun s t n h1 h2 h3 h4 h5 h6 h7 h8 => ?_⟩
  · rw [runMain_eq_noList env h1]
    exact ⟨rfl, rfl⟩
  · rw [runMain_eq_srcMissing env s h1 h2 h3 h4]
    exact ⟨rfl, rfl⟩
  · rw [runMain_eq_tgtMissing env s t h1 h2 h3 h4 h5 h6]
    refine ⟨rfl, fun e he => ?_⟩
    exact List.mem_cons_of_mem _ (List.mem_map_of_mem _ he)
  · rw [runMain_eq_tgtNotEmpty env s t n h1 h2 h3 h4 h5 h6 h7 h8]
    refine ⟨rfl, rfl, fun nm p tp => ⟨?_, ?_⟩, fun e he => ?_⟩
    · simp [List.mem_map]
    · simp [List.mem_map]
    · exact List.mem_cons_of_mem _ (List.mem_map_of_mem _ he)

/-- Witness for C1 (amended) on `envC1`: non-empty target halts the run
cleanly with no mutation, while the walked file was already indexed. -/
theorem preflight_order_amended_witness :
    (runMain envC1).outcome = .earlyExit (.targetNotEmpty "/t") ∧
    (runMain envC1).fs = envC1.fs ∧
    LogEvent.inserting "a" ∈ (runMain envC1).log := by
  have h := (preflight_order_amended envC1).2.2.2 "/s" "/t" 1
    rfl rfl rfl rfl rfl rfl rfl (by decide)
  exact ⟨h.1, h.2.1, h.2.2.2 ("a", "/s/a") (by decide)⟩

/-- C2 counterexample: the list-file content `"a\n\nb\n"` has two
non-empty lines but loads as three entries — the blank line contributes
the empty-string entry — refuting "blank lines contribute no entry". -/
theorem nameList_blank_lines_cex :
    rustLines ['a', '\n', '\n', 'b', '\n'] = ["a", "", "b"] ∧
    "" ∈ rustLines ['a', '\n', '\n', 'b', '\n'] := by
  constructor
  · rfl
  · decide

/-- C2 (amended): the loaded list holds exactly one entry per line of the
file — blank lines included, each contributing an empty entry — with the
trailing line terminator (`\n` or `\r\n`) stripped; this is the
spec-worded `specLines`, proved equal to the code's `rustLines`. -/
theorem nameList_entries_per_line (content : List Char) :
    rustLines content = specLines content :=
  rustLines_eq_specLines content

/-- C3 counterexample: on `envC3` the walk yields an unreadable entry
followed by a readable file, yet the run completes normally (no abort)
and even indexes the file after the unreadable entry — refuting "the run
terminates with a fatal abort and never continues past one". -/
theorem walk_error_continues_cex :
    (runMain envC3).outcome = .completed ∧
    LogEvent.inserting "a" ∈ (runMain envC3).log := by
  constructor
  · rfl
  · decide

/-- C3 (amended): unreadable directory entries met during the source
walk are silently dropped (`filter_map(Result::ok)`): the whole run
behaves exactly as if the unreadable entries were absent, and never
aborts because of one. -/
theorem walk_errors_skipped (env : Env) :
    runMain { env with walkItems := env.walkItems.filter fun it => !it.isErr } =
      runMain env := by
  have h : walkFiles (env.walkItems.filter fun it => !it.isErr) =
      walkFiles env.walkItems :=
    walkFiles_filter_errs env.walkItems
  unfold runMain
  dsimp only
  rw [h]

/-- C6: the pairs the copy loop acts on are exactly
`{(name, path) : name ∈ RequestedNameSet ∧ (name, path) ∈ SourceIndex}`;
requested names absent from the index are silently omitted, and a passing
dry run still completes normally with exactly one `DRY RUN` line per
reconciled pair — no error for the absentees. -/
theorem reconciler_intersection :
    (∀ (names : List String) (idx : List (String × String)) (n p : String),
      (n, p) ∈ reconciled names idx ↔ n ∈ names ∧ (n, p) ∈ idx) ∧
    (∀ (env : Env) (s t : String), preflightPass env s t →
      env.disableDryRun = false →
      (runMain env).outcome = .completed ∧
      (runMain env).log =
        .readingFrom s ::
          ((walkFiles env.walkItems).map (fun e => .inserting e.1) ++
            (reconciled (rustLines env.fileListContent)
                (buildIndex (walkFiles env.walkItems))).map
              (fun e => .dryRun e.1 e.2 (targetPathOf t e.1)))) := by
  constructor
  · intro names idx n p
    simp only [reconciled, List.mem_filter, List.elem_iff]
    exact and_comm
  · intro env s t hp hd
    rw [runMain_pass env s t hp, hd, copyLoop_dry]
    exact ⟨rfl, by simp⟩

/-- Witness for C6 on `envW6`: requested name `a` is matched and acted
on; the run completes with a single dry-run line. -/
theorem reconciler_intersection_witness :
    (("a", "/s/a") ∈ reconciled ["a"] [("a", "/s/a")] ↔
      "a" ∈ ["a"] ∧ ("a", "/s/a") ∈ [("a", "/s/a")]) ∧
    (runMain envW6).outcome = .completed ∧
    (runMain envW6).log =
      .readingFrom "/s" ::
        ((walkFiles envW6.walkItems).map (fun e => .inserting e.1) ++
          (reconciled (rustLines envW6.fileListContent)
              (buildIndex (walkFiles envW6.walkItems))).map
            (fun e => .dryRun e.1 e.2 (targetPathOf "/t" e.1))) :=
  ⟨reconciler_intersection.1 ["a"] [("a", "/s/a")] "a" "/s/a",
    reconciler_intersection.2 envW6 "/s" "/t" (by decide) rfl⟩

/-- C7: in apply mode (`disable_dry_run` true), under the physical side
conditions that no source path collides with a target path: if every
reconciled source is readable, the run completes and every reconciled
pair `(name, path)` ends with `<target>/<name>` holding exactly the bytes
of `path`; and if the index splits as `pre ++ bad :: post` with `bad` the
first reconciled entry whose source is unreadable, the run panics
(`Cannot copy file.`) while the files already copied from `pre` keep
their copied bytes — no rollback. -/
theorem apply_mode_copies_bytes (env : Env) (s t : String)
    (hp : preflightPass env s t) (happly : env.disableDryRun = true)
    (hdisj : ∀ e ∈ buildIndex (walkFiles env.walkItems),
      (rustLines env.fileListContent).contains e.1 = true →
      ∀ e' ∈ buildIndex (walkFiles env.walkItems),
        e.2 ≠ targetPathOf t e'.1) :
    ((∀ e ∈ buildIndex (walkFiles env.walkItems),
        (rustLines env.fileListContent).contains e.1 = true →
        lookupL e.2 env.fs ≠ none) →
      (runMain env).outcome = .completed ∧
      ∀ e ∈ buildIndex (walkFiles env.walkItems),
        (rustLines env.fileListContent).contains e.1 = true →
        lookupL (targetPathOf t e.1) (runMain env).fs = lookupL e.2 env.fs) ∧
    (∀ pre bad post,
      buildIndex (walkFiles env.walkItems) = pre ++ bad :: post →
      (∀ e ∈ pre, (rustLines env.fileListContent).contains e.1 = true →
        lookupL e.2 env.fs ≠ none) →
      (rustLines env.fileListContent).contains bad.1 = true →
      lookupL bad.2 env.fs = none →
      (runMain env).outcome = .panicked "Cannot copy file." ∧
      ∀ e ∈ pre, (rustLines env.fileListContent).contains e.1 = true →
        lookupL (targetPathOf t e.1) (runMain env).fs = lookupL e.2 env.fs) := by
  have hrm := runMain_pass env s t hp
  rw [hrm, happly]
  constructor
  · intro hsrc
    exact copyLoop_apply_ok (rustLines env.fileListContent) t
      (buildIndex (walkFiles env.walkItems)) _ env.fs
      (nodup_keys_buildIndex _) hdisj hsrc
  · intro pre bad post hsplit hsrc hcbad hbad
    have hnd := nodup_keys_buildIndex (walkFiles env.walkItems)
    rw [hsplit] at hnd hdisj
    rw [hsplit]
    exact copyLoop_apply_fail (rustLines env.fileListContent) t
      pre bad post _ env.fs hnd hdisj hsrc hcbad hbad

/-- Witness for C7 on `envW7`: the apply run completes and
`/t/a` holds exactly the bytes of `/s/a`. -/
theorem apply_mode_copies_bytes_witness :
    (runMain envW7).outcome = .completed ∧
    lookupL (targetPathOf "/t" "a") (runMain envW7).fs =
      lookupL "/s/a" envW7.fs := by
  have h := (apply_mode_copies_bytes envW7 "/s" "/t" (by decide) rfl
    (by decide)).1 (by decide)
  exact ⟨h.1, h.2 ("a", "/s/a") (by decide) (by decide)⟩

end Finder
